import Mathlib

/-!
Verification development for the zodipy interplanetary-dust emission
simulator.  The definitions below are shallow embeddings of the Python
source files (`zodipy/zodipy.py`, `zodipy/_decorators.py`,
`zodipy/_source_functions.py`): pure numpy functions become Lean
functions on lists of reals, in-place numpy array operations become
explicit state passing, and raising `ValueError` becomes returning an
error value.  The line-of-sight integrator (`zodipy._integral.trapezoidal`)
and the healpy pixelization routines are external collaborators of the
orchestration code under study and are treated as parameters.
-/

/-! ## Numpy-style unique / inverse / counts

`np.unique(a, return_inverse=True, return_counts=True)` returns the
sorted distinct values of `a`, the index into that sorted list of every
element of `a`, and the multiplicity of every distinct value.
-/

/-- Insert an element into a list, before the first element
that is not smaller than it (insertion-sort step). -/
def insertSorted {α : Type} [LinearOrder α] (x : α) : List α → List α
  | [] => [x]
  | y :: ys => if x ≤ y then x :: y :: ys else y :: insertSorted x ys

/-- Sort a list in ascending order by repeated insertion. -/
def sortAsc {α : Type} [LinearOrder α] (l : List α) : List α :=
  l.foldr insertSorted []

/-- Embedding of `np.unique(a)`: the distinct values of `a` in ascending
order (sorting first, then removing duplicates). -/
def npUnique {α : Type} [LinearOrder α] (l : List α) : List α :=
  (sortAsc l).dedup

/-- Embedding of the `return_inverse=True` output of `np.unique`: for every
element of the input, its index in the unique-value list. -/
def npInverse {α : Type} [LinearOrder α] (l : List α) : List ℕ :=
  l.map (fun x => (npUnique l).indexOf x)

/-- Embedding of the `return_counts=True` output of `np.unique`: the number
of occurrences in the input of each unique value. -/
def npCounts {α : Type} [LinearOrder α] (l : List α) : List ℕ :=
  (npUnique l).map (fun u => l.count u)

lemma mem_insertSorted {α : Type} [LinearOrder α] (x a : α) :
    ∀ l : List α, a ∈ insertSorted x l ↔ a = x ∨ a ∈ l := by
  intro l
  induction l with
  | nil => simp [insertSorted]
  | cons y ys ih =>
    by_cases h : x ≤ y
    · simp [insertSorted, h]
    · simp only [insertSorted, if_neg h, List.mem_cons, ih]
      tauto

lemma mem_sortAsc {α : Type} [LinearOrder α] (a : α) (l : List α) :
    a ∈ sortAsc l ↔ a ∈ l := by
  induction l with
  | nil => simp [sortAsc]
  | cons y ys ih =>
    simp only [sortAsc, List.foldr_cons, List.mem_cons]
    rw [show List.foldr insertSorted [] ys = sortAsc ys from rfl] at *
    rw [mem_insertSorted, ih]

lemma mem_npUnique {α : Type} [LinearOrder α] (a : α) (l : List α) :
    a ∈ npUnique l ↔ a ∈ l := by
  rw [npUnique, List.mem_dedup, mem_sortAsc]

lemma npUnique_nodup {α : Type} [LinearOrder α] (l : List α) :
    (npUnique l).Nodup :=
  List.nodup_dedup _

lemma npCounts_length {α : Type} [LinearOrder α] (l : List α) :
    (npCounts l).length = (npUnique l).length := by
  simp [npCounts]

/-! ## Scatter assignment

`emission[idx, indices] = values` on a numpy array writes the values in
order at the listed positions (with the last write winning on repeated
indices).  We embed one row of the 2D emission array as a function
`ℕ → ℝ` updated pointwise.
-/

/-- Apply a list of (index, value) writes to a function, in order. -/
def updList (base : ℕ → ℝ) (ps : List (ℕ × ℝ)) : ℕ → ℝ :=
  ps.foldl (fun f iv => Function.update f iv.1 iv.2) base

/-- Embedding of the numpy fancy assignment `a[idxs] = vals` applied to a
row `base`. -/
def scatterAssign (base : ℕ → ℝ) (idxs : List ℕ) (vals : List ℝ) : ℕ → ℝ :=
  updList base (idxs.zip vals)

lemma updList_cons (base : ℕ → ℝ) (q : ℕ × ℝ) (ps : List (ℕ × ℝ)) :
    updList base (q :: ps) = updList (Function.update base q.1 q.2) ps := rfl

lemma updList_of_not_mem (ps : List (ℕ × ℝ)) (base : ℕ → ℝ) (p : ℕ)
    (hp : ∀ q ∈ ps, q.1 ≠ p) : updList base ps p = base p := by
  induction ps generalizing base with
  | nil => rfl
  | cons q rest ih =>
    rw [updList_cons, ih _ (fun r hr => hp r (List.mem_cons_of_mem _ hr))]
    exact Function.update_noteq (Ne.symm (hp q (List.mem_cons_self _ _))) _ _

lemma updList_of_mem (ps : List (ℕ × ℝ)) (base : ℕ → ℝ) (p : ℕ) (v : ℝ)
    (hnd : (ps.map Prod.fst).Nodup) (hmem : (p, v) ∈ ps) :
    updList base ps p = v := by
  induction ps generalizing base with
  | nil => exact absurd hmem (List.not_mem_nil _)
  | cons q rest ih =>
    rw [updList_cons]
    rcases List.mem_cons.mp hmem with h | h
    · have hq : q.1 = p := by rw [← h]
      have hnotin : ∀ r ∈ rest, r.1 ≠ p := by
        intro r hr
        have : q.1 ∉ rest.map Prod.fst := (List.nodup_cons.mp hnd).1
        intro hrp
        exact this (hq ▸ hrp ▸ List.mem_map_of_mem Prod.fst hr)
      rw [updList_of_not_mem _ _ _ hnotin, hq, ← h]
      exact Function.update_same _ _ _
    · exact ih _ (List.nodup_cons.mp hnd).2 h

lemma scatterAssign_of_not_mem (base : ℕ → ℝ) (idxs : List ℕ) (vals : List ℝ)
    (p : ℕ) (hp : p ∉ idxs) : scatterAssign base idxs vals p = base p := by
  refine updList_of_not_mem _ _ _ (fun q hq => ?_)
  intro h
  exact hp (h ▸ (List.of_mem_zip hq).1)

lemma scatterAssign_get (base : ℕ → ℝ) (idxs : List ℕ) (vals : List ℝ)
    (i : ℕ) (hnd : idxs.Nodup) (hi : i < idxs.length)
    (hlen : vals.length = idxs.length) :
    scatterAssign base idxs vals (idxs.get ⟨i, hi⟩) =
      vals.get ⟨i, hlen ▸ hi⟩ := by
  have hzlen : (idxs.zip vals).length = idxs.length := by
    simp [List.length_zip, hlen]
  have hmem : (idxs.get ⟨i, hi⟩, vals.get ⟨i, hlen ▸ hi⟩) ∈ idxs.zip vals := by
    have : (idxs.zip vals).get ⟨i, hzlen ▸ hi⟩ =
        (idxs.get ⟨i, hi⟩, vals.get ⟨i, hlen ▸ hi⟩) := by
      simp [List.getElem_zip]
    rw [← this]
    exact List.get_mem _ _ _
  have hfst : (idxs.zip vals).map Prod.fst = idxs :=
    List.map_fst_zip idxs vals (le_of_eq hlen.symm)
  exact updList_of_mem _ _ _ _ (by rw [hfst]; exact hnd) hmem

/-! ## Source functions (`zodipy/_source_functions.py`)

Physical constants are the numeric values of `astropy.constants`
`h`, `c` and `k_B` used by the module.
-/

/-- Planck constant [J s], the value of `astropy.constants.h`. -/
def h : ℝ := 6.62607015e-34

/-- Speed of light [m / s], the value of `astropy.constants.c`. -/
def c : ℝ := 299792458

/-- Boltzmann constant [J / K], the value of `astropy.constants.k_B`. -/
def k_B : ℝ := 1.380649e-23

/-- Mathematical value of `np.expm1`. -/
noncomputable def expm1 (x : ℝ) : ℝ := Real.exp x - 1

/-- Embedding of `blackbody_emission(T, freq)` for scalar `T` [K] and scalar
`freq` [GHz]: the function first rescales the frequency by `1e9` and then
evaluates the two Planck-law terms. -/
noncomputable def blackbody_emission (T freq : ℝ) : ℝ :=
  let freq1 := freq * 1e9
  let term1 := 2 * h * freq1 ^ 3 / c ^ 2
  let term2 := expm1 (h * freq1 / (k_B * T))
  term1 / term2

/-- Embedding of `blackbody_emission_wavelen(T, wavelen)` for scalar
arguments, with `wavelen` in microns rescaled by `1e-6`. -/
noncomputable def blackbody_emission_wavelen (T wavelen : ℝ) : ℝ :=
  let wavelen1 := wavelen * 1e-6
  let term1 := 2 * h * c ^ 2 / wavelen1 ^ 5
  let term2 := expm1 (h * c / (wavelen1 * k_B * T))
  term1 / term2

/-- Embedding of `blackbody_emission` applied to ndarray arguments of equal
shape.  The trailing two components of the result are the contents of the
arrays `T` and `freq` after the call: `freq *= 1e9` is an in-place numpy
operation, so the caller's `freq` buffer ends up rescaled. -/
noncomputable def blackbody_emission_np (T freq : List ℝ) :
    List ℝ × List ℝ × List ℝ :=
  let freq1 := freq.map (fun f => f * 1e9)
  let term1 := freq1.map (fun f => 2 * h * f ^ 3 / c ^ 2)
  let term2 := (T.zip freq1).map (fun tf => expm1 (h * tf.2 / (k_B * tf.1)))
  ((term1.zip term2).map (fun ab => ab.1 / ab.2), T, freq1)

/-- Embedding of `blackbody_emission_wavelen` applied to ndarray arguments,
returning the result together with the post-call contents of `T` and
`wavelen` (the latter rescaled in place by `1e-6`). -/
noncomputable def blackbody_emission_wavelen_np (T wavelen : List ℝ) :
    List ℝ × List ℝ × List ℝ :=
  let wavelen1 := wavelen.map (fun w => w * 1e-6)
  let term1 := wavelen1.map (fun w => 2 * h * c ^ 2 / w ^ 5)
  let term2 := (T.zip wavelen1).map (fun tw => expm1 (h * c / (tw.2 * k_B * tw.1)))
  ((term1.zip term2).map (fun ab => ab.1 / ab.2), T, wavelen1)

/-- Embedding of `interplanetary_temperature(R, T_0, delta)` applied to an
ndarray `R`, returning the result together with the post-call contents of
`R` (the expression `T_0 * R ** -delta` allocates a fresh array). -/
noncomputable def interplanetary_temperature_np (R : List ℝ) (T_0 delta : ℝ) :
    List ℝ × List ℝ :=
  (R.map (fun r => T_0 * r ^ (-delta)), R)

/-- Unnormalized phase-function values `C[0] + C[1]*Theta + exp(C[2]*Theta)`
evaluated on a scattering-angle array. -/
noncomputable def phase_unnormalized (Theta : List ℝ) (C : ℝ × ℝ × ℝ) : List ℝ :=
  Theta.map (fun th => C.1 + C.2.1 * th + Real.exp (C.2.2 * th))

/-- Embedding of `phase_function(Theta, C)`: the unnormalized values scaled
by the reciprocal of their sum. -/
noncomputable def phase_function (Theta : List ℝ) (C : ℝ × ℝ × ℝ) : List ℝ :=
  let phase := phase_unnormalized Theta C
  let N := 1 / phase.sum
  phase.map (fun p => N * p)

/-- Embedding of `phase_function` returning also the post-call contents of
its arguments (the source allocates fresh arrays and never writes to
`Theta` or `C`). -/
noncomputable def phase_function_np (Theta : List ℝ) (C : ℝ × ℝ × ℝ) :
    List ℝ × List ℝ × (ℝ × ℝ × ℝ) :=
  (phase_function Theta C, Theta, C)

/-! ## Input validation (`Zodipy.get_emission` lines 153-196 and
`zodipy/_decorators.py`) -/

/-- Character-wise lower-casing, the embedding of Python `str.lower()`. -/
def lowerStr (s : String) : String := ⟨s.data.map Char.toLower⟩

/-- Embedding of the `Zodipy.observers` property: the ephemeris body set
extended with the manually supported `"semb-l2"` observer. -/
def supportedObservers (bodies : List String) : List String :=
  bodies ++ ["semb-l2"]

/-- Arguments of `Zodipy.get_emission` that its validation code inspects.
Frequencies and angles are modelled as rationals, pixels as naturals. -/
structure EmissionArgs where
  freq : ℚ
  obs : String
  pixels : Option (List ℕ)
  theta : Option (List ℚ)
  phi : Option (List ℚ)
  nside : Option ℕ
  lonlat : Bool
  binned : Bool

/-- One value per `raise ValueError` site in `get_emission` lines 153-196. -/
inductive EmissionError where
  | unsupportedObserver (obs : String)
  | pixelsWithoutNside
  | binnedWithoutNside
  | missingThetaOrPhi
  | bothPixelsAndAngles
  | lonlatWithoutAngles
  deriving DecidableEq

/-- Embedding of the validation statements of `get_emission` (lines
153-196), in source order: each `if ... raise` becomes a branch returning
the corresponding error, and falling through all checks returns `none`. -/
def validateArgs (bodies : List String) (a : EmissionArgs) : Option EmissionError :=
  if lowerStr a.obs ∉ supportedObservers bodies then
    some (EmissionError.unsupportedObserver a.obs)
  else if a.pixels.isSome && a.nside.isNone then
    some EmissionError.pixelsWithoutNside
  else if a.binned && a.nside.isNone then
    some EmissionError.binnedWithoutNside
  else if (a.theta.isSome && a.phi.isNone) || (a.phi.isSome && a.theta.isNone) then
    some EmissionError.missingThetaOrPhi
  else if a.pixels.isSome && (a.phi.isSome || a.theta.isSome) then
    some EmissionError.bothPixelsAndAngles
  else if a.pixels.isSome && a.lonlat then
    some EmissionError.lonlatWithoutAngles
  else
    none

/-- Embedding of the control flow of `get_emission`: the validation block
runs first, and only when it raises nothing does the function consult the
ephemeris and run the numeric stages (position resolution, spectral
interpolation, unit-vector computation and integration), all abstracted
into the `compute` collaborator, which receives the ephemeris position
resolver. -/
def getEmissionRun (bodies : List String) (ephPos : String → ℝ × ℝ × ℝ)
    (a : EmissionArgs)
    (compute : (String → ℝ × ℝ × ℝ) → EmissionArgs → List ℝ) :
    Except EmissionError (List ℝ) :=
  match validateArgs bodies a with
  | some e => Except.error e
  | none => Except.ok (compute ephPos a)

/-- Value of `np.min` on a list of rationals (`0` for the empty list, on
which numpy would raise). -/
def listMin (l : List ℚ) : ℚ := l.foldl min (l.headD 0)

/-- Value of `np.max` on a list of rationals (`0` for the empty list, on
which numpy would raise). -/
def listMax (l : List ℚ) : ℚ := l.foldl max (l.headD 0)

/-- Embedding of `validate_frequency` from `zodipy/_decorators.py`, with
the frequency already converted to the model's spectrum unit: when
extrapolation is disabled, a frequency outside the inclusive range
`[spectrum.min(), spectrum.max()]` raises a `ValueError` carrying that
range; otherwise the frequency is passed through. -/
def validate_frequency (extrapolate : Bool) (spectrum : List ℚ) (freq : ℚ) :
    Except (ℚ × ℚ) ℚ :=
  if !extrapolate then
    if listMin spectrum ≤ freq ∧ freq ≤ listMax spectrum then Except.ok freq
    else Except.error (listMin spectrum, listMax spectrum)
  else Except.ok freq

/-- HEALPix pixel count of an nside resolution, `hp.nside2npix`. -/
def nside2npix (nside : ℕ) : ℕ := 12 * nside ^ 2

/-- Value of `np.max` on a list of naturals. -/
def listMaxNat (l : List ℕ) : ℕ := l.foldl max 0

/-- Embedding of `validate_pixels` from `zodipy/_decorators.py`: it raises
exactly when the largest pixel strictly exceeds `hp.nside2npix(nside)`. -/
def validate_pixels (nside : ℕ) (pixels : List ℕ) : Option String :=
  if listMaxNat pixels > nside2npix nside then
    some "invalid pixel number given nside"
  else
    none

/-! ## Observer position resolution (`get_emission` lines 200-213) -/

/-- Fixed radial offset [AU] used to synthesize the `semb-l2` observer. -/
noncomputable def DISTANCE_FROM_EARTH_TO_L2 : ℝ := 0.009896235034000056

/-- Euclidean norm of a 3-vector, the value of `np.linalg.norm`. -/
noncomputable def norm3 (v : ℝ × ℝ × ℝ) : ℝ := Real.sqrt (v.1 ^ 2 + v.2.1 ^ 2 + v.2.2 ^ 2)

/-- Scalar multiplication of a 3-vector. -/
noncomputable def smul3 (a : ℝ) (v : ℝ × ℝ × ℝ) : ℝ × ℝ × ℝ := (a * v.1, a * v.2.1, a * v.2.2)

/-- Embedding of the `semb-l2` branch of `get_emission`: normalize the
Earth position and rescale it to the Earth distance plus the fixed L2
offset. -/
noncomputable def sembL2Pos (earth : ℝ × ℝ × ℝ) : ℝ × ℝ × ℝ :=
  let earth_length := norm3 earth
  let earth_unit_vec := smul3 (1 / earth_length) earth
  smul3 (earth_length + DISTANCE_FROM_EARTH_TO_L2) earth_unit_vec

/-- Embedding of the observer-position block of `get_emission` (lines
203-213): an explicit `obs_pos` overrides everything, the `semb-l2`
observer is synthesized from the Earth position, and any other observer is
resolved through the ephemeris. -/
noncomputable def resolveObsPos (obs : String) (obsPos : Option (ℝ × ℝ × ℝ))
    (ephPos : String → ℝ × ℝ × ℝ) (earth : ℝ × ℝ × ℝ) : ℝ × ℝ × ℝ :=
  match obsPos with
  | some p => p
  | none => if lowerStr obs = "semb-l2" then sembL2Pos earth else ephPos obs

/-! ## Orchestration of the emission computation (`get_emission` lines
235-313)

The per-component integrator `trapezoidal` composed with the unit-vector
construction (`_rotated_pix2vec` / `_rotated_ang2vec`) is an external
collaborator: each component is abstracted as a function `g` from a
direction (a pixel or an angle pair) to its integrated emission.  The
direction type is kept generic, ordered as `np.unique` orders it. -/

/-- Embedding of the non-binned branch of `get_emission` for one component:
integrate on the unique directions and broadcast the result back through
the `np.unique` inverse-index map (`integrated_comp_emission[indicies]`). -/
def unbinnedRow {α : Type} [LinearOrder α] (g : α → ℝ) (dirs : List α) : List ℝ :=
  let integrated := (npUnique dirs).map g
  (npInverse dirs).map (fun j => integrated.getD j 0)

/-- Embedding of the non-binned branch of `get_emission` for the full
component list (the rows of the `emission` array before unit conversion). -/
def getEmissionUnbinned {α : Type} [LinearOrder α] (comps : List (α → ℝ))
    (dirs : List α) : List (List ℝ) :=
  comps.map (fun g => unbinnedRow g dirs)

/-- State of one row of the binned `emission` array right after
`emission[idx, unique_pixels] = trapezoidal(...)`: a zero row of the full
HEALPix map receives the integrated emission of each unique direction at
its pixel. -/
noncomputable def binnedBase {α : Type} [LinearOrder α] (g : α → ℝ) (a2p : α → ℕ)
    (dirs : List α) : ℕ → ℝ :=
  scatterAssign (fun _ => 0) ((npUnique dirs).map a2p) ((npUnique dirs).map g)

/-- Inner map of the binned branch of `get_emission` for one component:
after the scatter of `binnedBase`, the occupied pixels are gathered,
multiplied by the unique-direction counts and scattered back
(`emission[:, unique_pixels] *= counts`). -/
noncomputable def binnedInner {α : Type} [LinearOrder α] (g : α → ℝ) (a2p : α → ℕ)
    (dirs : List α) : ℕ → ℝ :=
  scatterAssign (binnedBase g a2p dirs) ((npUnique dirs).map a2p)
    ((((npUnique dirs).map a2p).zip (npCounts dirs)).map
      (fun pc => binnedBase g a2p dirs pc.1 * (pc.2 : ℝ)))

/-- Embedding of the binned branch of `get_emission` for one component: the
full map row of `hp.nside2npix(nside)` pixels. -/
noncomputable def getEmissionBinnedRow {α : Type} [LinearOrder α] (g : α → ℝ) (a2p : α → ℕ)
    (nside : ℕ) (dirs : List α) : List ℝ :=
  (List.range (nside2npix nside)).map (binnedInner g a2p dirs)

/-- Embedding of the binned branch of `get_emission` for the full component
list. -/
noncomputable def getEmissionBinned {α : Type} [LinearOrder α] (comps : List (α → ℝ))
    (a2p : α → ℕ) (nside : ℕ) (dirs : List α) : List (List ℝ) :=
  comps.map (fun g => getEmissionBinnedRow g a2p nside dirs)

/-! ## Shared helper lemmas -/

lemma getD_map_of_lt {α β : Type} (l : List α) (f : α → β) (d : β) (i : ℕ)
    (hi : i < l.length) : (l.map f).getD i d = f (l.get ⟨i, hi⟩) := by
  have hm : i < (l.map f).length := by simpa using hi
  rw [List.getD_eq_getElem _ _ hm, List.getElem_map]
  rfl

lemma range_map_getD (n : ℕ) (f : ℕ → ℝ) (p : ℕ) (hp : p < n) :
    ((List.range n).map f).getD p 0 = f p := by
  rw [getD_map_of_lt _ _ _ p (by simpa using hp)]
  congr 1
  simp

lemma one_lt_exp_of_pos (x : ℝ) (hx : 0 < x) : 1 < Real.exp x := by
  calc (1 : ℝ) = Real.exp 0 := Real.exp_zero.symm
  _ < Real.exp x := Real.exp_lt_exp.mpr hx

lemma sum_map_mul_left (l : List ℝ) (a : ℝ) :
    (l.map (fun x => a * x)).sum = a * l.sum := by
  induction l with
  | nil => simp
  | cons y ys ih => simp [ih]; ring

/-! ## C6: phase-function normalization -/

/-- C6: for every scattering-angle array `Theta` and coefficient triple `C`
whose unnormalized values `C.1 + C.2.1 * Theta + exp (C.2.2 * Theta)` do
not sum to zero, `phase_function Theta C` sums to exactly `1` and each
entry is the unnormalized value at that angle scaled by the reciprocal
`N` of the unnormalized sum. -/
theorem phase_function_normalized (Theta : List ℝ) (C : ℝ × ℝ × ℝ)
    (hs : (phase_unnormalized Theta C).sum ≠ 0) :
    (phase_function Theta C).sum = 1 ∧
    ∀ i : ℕ, i < Theta.length →
      (phase_function Theta C).getD i 0 =
        (1 / (phase_unnormalized Theta C).sum) *
          (C.1 + C.2.1 * Theta.getD i 0 + Real.exp (C.2.2 * Theta.getD i 0)) := by
  constructor
  · show ((phase_unnormalized Theta C).map
      (fun p => (1 / (phase_unnormalized Theta C).sum) * p)).sum = 1
    rw [sum_map_mul_left, one_div, inv_mul_cancel₀ hs]
  · intro i hi
    have hiu : i < (phase_unnormalized Theta C).length := by
      simpa [phase_unnormalized] using hi
    show ((phase_unnormalized Theta C).map
      (fun p => (1 / (phase_unnormalized Theta C).sum) * p)).getD i 0 = _
    rw [getD_map_of_lt _ _ _ i hiu]
    congr 1
    show (Theta.map
      (fun th => C.1 + C.2.1 * th + Real.exp (C.2.2 * th))).get ⟨i, hiu⟩ = _
    rw [List.get_eq_getElem, List.getElem_map, List.getD_eq_getElem _ _ hi]

theorem phase_function_normalized_witness :
    (phase_unnormalized [0] ((1 : ℝ), 0, 0)).sum ≠ 0 ∧
    (phase_function [0] ((1 : ℝ), 0, 0)).sum = 1 :=
  have hs : (phase_unnormalized [0] ((1 : ℝ), 0, 0)).sum ≠ 0 := by
    norm_num [phase_unnormalized, Real.exp_zero]
  ⟨hs, (phase_function_normalized [0] ((1 : ℝ), 0, 0) hs).1⟩

/-! ## C7: blackbody emission positivity, Planck form, monotonicity -/

/-- C7: for temperatures `0 < T < T'` and frequency `freq > 0` [GHz],
`blackbody_emission T freq` is strictly positive, equals Planck's law at
the frequency converted to Hz (factor 1e9), and is strictly increasing in
the temperature. -/
theorem blackbody_planck_pos_mono (T T' freq : ℝ) (hT : 0 < T)
    (hTT : T < T') (hf : 0 < freq) :
    0 < blackbody_emission T freq ∧
    blackbody_emission T freq =
      2 * h * (freq * 1e9) ^ 3 / c ^ 2 /
        (Real.exp (h * (freq * 1e9) / (k_B * T)) - 1) ∧
    blackbody_emission T freq < blackbody_emission T' freq := by
  have hh : (0 : ℝ) < h := by norm_num [h]
  have hc : (0 : ℝ) < c := by norm_num [c]
  have hk : (0 : ℝ) < k_B := by norm_num [k_B]
  have hT' : 0 < T' := lt_trans hT hTT
  have hf9 : 0 < freq * 1e9 := mul_pos hf (by norm_num)
  have hx : 0 < h * (freq * 1e9) / (k_B * T) :=
    div_pos (mul_pos hh hf9) (mul_pos hk hT)
  have hx' : 0 < h * (freq * 1e9) / (k_B * T') :=
    div_pos (mul_pos hh hf9) (mul_pos hk hT')
  have hterm1 : 0 < 2 * h * (freq * 1e9) ^ 3 / c ^ 2 :=
    div_pos (mul_pos (mul_pos two_pos hh) (pow_pos hf9 3)) (pow_pos hc 2)
  have hterm2 : 0 < expm1 (h * (freq * 1e9) / (k_B * T)) :=
    sub_pos.mpr (one_lt_exp_of_pos _ hx)
  have hterm2' : 0 < expm1 (h * (freq * 1e9) / (k_B * T')) :=
    sub_pos.mpr (one_lt_exp_of_pos _ hx')
  refine ⟨div_pos hterm1 hterm2, rfl, ?_⟩
  have hxx : h * (freq * 1e9) / (k_B * T') < h * (freq * 1e9) / (k_B * T) :=
    div_lt_div_of_pos_left (mul_pos hh hf9) (mul_pos hk hT)
      (mul_lt_mul_of_pos_left hTT hk)
  have hlt : expm1 (h * (freq * 1e9) / (k_B * T')) <
      expm1 (h * (freq * 1e9) / (k_B * T)) :=
    sub_lt_sub_right (Real.exp_lt_exp.mpr hxx) 1
  exact div_lt_div_of_pos_left hterm1 hterm2' hlt

theorem blackbody_planck_pos_mono_witness :
    0 < blackbody_emission 1 1 ∧
    blackbody_emission 1 1 =
      2 * h * ((1 : ℝ) * 1e9) ^ 3 / c ^ 2 /
        (Real.exp (h * ((1 : ℝ) * 1e9) / (k_B * 1)) - 1) ∧
    blackbody_emission 1 1 < blackbody_emission 2 1 :=
  blackbody_planck_pos_mono 1 2 1 (by norm_num) (by norm_num) (by norm_num)

/-! ## C8: purity and frame conditions of the source functions -/

lemma blackbody_np_result : ∀ (T freq : List ℝ),
    (blackbody_emission_np T freq).1 =
      (T.zip freq).map (fun tf => blackbody_emission tf.1 tf.2) := by
  intro T
  induction T with
  | nil => intro freq; simp [blackbody_emission_np]
  | cons t Ts ih =>
    intro freq
    cases freq with
    | nil => rfl
    | cons f fs =>
      show ((2 * h * (f * 1e9) ^ 3 / c ^ 2) / expm1 (h * (f * 1e9) / (k_B * t)))
          :: (blackbody_emission_np Ts fs).1 =
        blackbody_emission t f :: ((Ts.zip fs).map (fun tf => blackbody_emission tf.1 tf.2))
      rw [ih fs]
      rfl

/-- C8 (amended): the source functions are deterministic, and
`interplanetary_temperature` and `phase_function` leave every argument
array unchanged; `blackbody_emission` leaves `T` unchanged and its result
is the elementwise scalar Planck value, but it rescales the contents of an
ndarray `freq` argument in place by `1e9` (and `blackbody_emission_wavelen`
rescales `wavelen` by `1e-6`). -/
theorem source_functions_frame (T freq wavelen R Theta : List ℝ)
    (C : ℝ × ℝ × ℝ) (T_0 delta : ℝ) :
    (blackbody_emission_np T freq).2.1 = T ∧
    (blackbody_emission_np T freq).2.2 = freq.map (fun f => f * 1e9) ∧
    (blackbody_emission_np T freq).1 =
      (T.zip freq).map (fun tf => blackbody_emission tf.1 tf.2) ∧
    (blackbody_emission_wavelen_np T wavelen).2.1 = T ∧
    (blackbody_emission_wavelen_np T wavelen).2.2 = wavelen.map (fun w => w * 1e-6) ∧
    (interplanetary_temperature_np R T_0 delta).2 = R ∧
    (phase_function_np Theta C).2.1 = Theta ∧
    (phase_function_np Theta C).2.2 = C :=
  ⟨rfl, rfl, blackbody_np_result T freq, rfl, rfl, rfl, rfl, rfl⟩

/-- C8 counterexample: calling `blackbody_emission` with the one-element
ndarray `freq = [1]` leaves the caller's frequency buffer holding `[1e9]`,
not the original `[1]`: the argument is not unchanged after the call. -/
theorem blackbody_freq_mutation_cex :
    (blackbody_emission_np [300] [1]).2.2 ≠ [1] := by
  have hval : (blackbody_emission_np [300] [1]).2.2 = [(1 : ℝ) * 1e9] := rfl
  rw [hval]
  intro hcontra
  have : (1 : ℝ) * 1e9 = 1 := List.head_eq_of_cons_eq hcontra
  norm_num at this

/-! ## C9: synthesized semb-l2 observer position -/

lemma norm3_smul3 (a : ℝ) (v : ℝ × ℝ × ℝ) :
    norm3 (smul3 a v) = |a| * norm3 v := by
  show Real.sqrt ((a * v.1) ^ 2 + (a * v.2.1) ^ 2 + (a * v.2.2) ^ 2) = _
  rw [show (a * v.1) ^ 2 + (a * v.2.1) ^ 2 + (a * v.2.2) ^ 2 =
    a ^ 2 * (v.1 ^ 2 + v.2.1 ^ 2 + v.2.2 ^ 2) from by ring]
  rw [Real.sqrt_mul (sq_nonneg a), Real.sqrt_sq_eq_abs]
  rfl

lemma smul3_smul3 (a b : ℝ) (v : ℝ × ℝ × ℝ) :
    smul3 a (smul3 b v) = smul3 (a * b) v := by
  simp [smul3, mul_assoc]

/-- C9: when `get_emission` is called with `obs = "semb-l2"` and no
explicit `obs_pos`, the resolved observer position is a positive scalar
multiple of the Earth position, and its norm is the Earth norm plus the
fixed `DISTANCE_FROM_EARTH_TO_L2` offset — the observer sits radially
outward from Earth. -/
theorem semb_l2_radial_offset (earth : ℝ × ℝ × ℝ)
    (ephPos : String → ℝ × ℝ × ℝ) (hn : 0 < norm3 earth) :
    (∃ a : ℝ, 0 < a ∧
      resolveObsPos "semb-l2" none ephPos earth = smul3 a earth) ∧
    norm3 (resolveObsPos "semb-l2" none ephPos earth) =
      norm3 earth + DISTANCE_FROM_EARTH_TO_L2 := by
  have hD : 0 < DISTANCE_FROM_EARTH_TO_L2 := by
    norm_num [DISTANCE_FROM_EARTH_TO_L2]
  have hres : resolveObsPos "semb-l2" none ephPos earth = sembL2Pos earth := by
    simp [resolveObsPos, show lowerStr "semb-l2" = "semb-l2" from by decide]
  have hsemb : sembL2Pos earth =
      smul3 ((norm3 earth + DISTANCE_FROM_EARTH_TO_L2) * (1 / norm3 earth)) earth := by
    show smul3 (norm3 earth + DISTANCE_FROM_EARTH_TO_L2)
      (smul3 (1 / norm3 earth) earth) = _
    rw [smul3_smul3]
  have ha : 0 < (norm3 earth + DISTANCE_FROM_EARTH_TO_L2) * (1 / norm3 earth) :=
    mul_pos (by linarith) (by positivity)
  constructor
  · exact ⟨_, ha, by rw [hres, hsemb]⟩
  · rw [hres, hsemb, norm3_smul3, abs_of_pos ha]
    field_simp

theorem semb_l2_radial_offset_witness :
    (∃ a : ℝ, 0 < a ∧
      resolveObsPos "semb-l2" none (fun _ => (0, 0, 0)) ((3 : ℝ), 4, 0) =
        smul3 a ((3 : ℝ), 4, 0)) ∧
    norm3 (resolveObsPos "semb-l2" none (fun _ => (0, 0, 0)) ((3 : ℝ), 4, 0)) =
      norm3 ((3 : ℝ), 4, 0) + DISTANCE_FROM_EARTH_TO_L2 :=
  semb_l2_radial_offset ((3 : ℝ), 4, 0) (fun _ => (0, 0, 0))
    (by norm_num [norm3, Real.sqrt_pos])

/-! ## Orchestration lemmas -/

lemma unbinnedRow_getD {α : Type} [LinearOrder α] (g : α → ℝ) (dirs : List α)
    (i : ℕ) (hi : i < dirs.length) :
    (unbinnedRow g dirs).getD i 0 = g (dirs.get ⟨i, hi⟩) := by
  have hinv : i < (npInverse dirs).length := by simpa [npInverse] using hi
  show ((npInverse dirs).map (fun j => ((npUnique dirs).map g).getD j 0)).getD i 0 = _
  rw [getD_map_of_lt _ _ _ i hinv]
  have hgetinv : (npInverse dirs).get ⟨i, hinv⟩ =
      (npUnique dirs).indexOf (dirs.get ⟨i, hi⟩) := by
    show (dirs.map fun x => (npUnique dirs).indexOf x).get ⟨i, hinv⟩ = _
    rw [List.get_eq_getElem, List.getElem_map]
    rfl
  rw [hgetinv]
  have hmem : dirs.get ⟨i, hi⟩ ∈ npUnique dirs :=
    (mem_npUnique _ _).mpr (List.get_mem _ _ _)
  have hidx : (npUnique dirs).indexOf (dirs.get ⟨i, hi⟩) < (npUnique dirs).length :=
    List.indexOf_lt_length.mpr hmem
  rw [getD_map_of_lt _ _ _ _ hidx]
  congr 1
  exact List.indexOf_get hidx

lemma binnedInner_of_not_mem {α : Type} [LinearOrder α] (g : α → ℝ) (a2p : α → ℕ)
    (dirs : List α) (p : ℕ) (hp : p ∉ dirs.map a2p) :
    binnedInner g a2p dirs p = 0 := by
  have hpu : p ∉ (npUnique dirs).map a2p := by
    intro hmem
    obtain ⟨x, hx, hxe⟩ := List.mem_map.mp hmem
    exact hp (List.mem_map.mpr ⟨x, (mem_npUnique _ _).mp hx, hxe⟩)
  unfold binnedInner
  rw [scatterAssign_of_not_mem _ _ _ _ hpu]
  unfold binnedBase
  rw [scatterAssign_of_not_mem _ _ _ _ hpu]

lemma count_map_eq_count {α : Type} [DecidableEq α] (l : List α) (f : α → ℕ)
    (a : α) (hinj : ∀ x ∈ l, f x = f a → x = a) :
    (l.map f).count (f a) = l.count a := by
  induction l with
  | nil => rfl
  | cons b t ih =>
    have ht : ∀ x ∈ t, f x = f a → x = a :=
      fun x hx => hinj x (List.mem_cons_of_mem _ hx)
    by_cases hb : b = a
    · simp [List.count_cons, hb, ih ht]
    · have hfb : ¬(f b = f a) := fun hcontra => hb (hinj b (List.mem_cons_self _ _) hcontra)
      simp [List.count_cons, hb, hfb, ih ht]

lemma binnedInner_of_mem {α : Type} [LinearOrder α] (g : α → ℝ) (a2p : α → ℕ)
    (dirs : List α) (a : α)
    (hinj : ∀ x ∈ dirs, ∀ y ∈ dirs, a2p x = a2p y → x = y) (ha : a ∈ dirs) :
    binnedInner g a2p dirs (a2p a) = g a * (dirs.count a : ℝ) := by
  have hau : a ∈ npUnique dirs := (mem_npUnique _ _).mpr ha
  have hi : (npUnique dirs).indexOf a < (npUnique dirs).length :=
    List.indexOf_lt_length.mpr hau
  have hget : (npUnique dirs).get ⟨(npUnique dirs).indexOf a, hi⟩ = a :=
    List.indexOf_get hi
  have hndu : ((npUnique dirs).map a2p).Nodup := by
    refine List.Nodup.map_on ?_ (npUnique_nodup dirs)
    intro x hx y hy hxy
    exact hinj x ((mem_npUnique _ _).mp hx) y ((mem_npUnique _ _).mp hy) hxy
  have hiu : (npUnique dirs).indexOf a < ((npUnique dirs).map a2p).length := by
    simpa using hi
  have hgetm : ((npUnique dirs).map a2p).get ⟨(npUnique dirs).indexOf a, hiu⟩ = a2p a := by
    rw [List.get_eq_getElem, List.getElem_map]
    exact congrArg a2p hget
  have hlen1 : ((npUnique dirs).map g).length = ((npUnique dirs).map a2p).length := by
    simp
  have he1 : binnedBase g a2p dirs (a2p a) = g a := by
    unfold binnedBase
    rw [← hgetm, scatterAssign_get _ _ _ _ hndu hiu hlen1]
    rw [List.get_eq_getElem, List.getElem_map]
    exact congrArg g hget
  have hlen2 :
      ((((npUnique dirs).map a2p).zip (npCounts dirs)).map
        (fun pc => binnedBase g a2p dirs pc.1 * (pc.2 : ℝ))).length =
      ((npUnique dirs).map a2p).length := by
    simp [npCounts]
  have hzlen : (((npUnique dirs).map a2p).zip (npCounts dirs)).length =
      ((npUnique dirs).map a2p).length := by
    simp [npCounts]
  have hic : (npUnique dirs).indexOf a < (npCounts dirs).length := by
    rw [npCounts_length]
    exact hi
  have hiz : (npUnique dirs).indexOf a <
      (((npUnique dirs).map a2p).zip (npCounts dirs)).length := hzlen ▸ hiu
  unfold binnedInner
  rw [← hgetm, scatterAssign_get _ _ _ _ hndu hiu hlen2]
  have hv2 :
      ((((npUnique dirs).map a2p).zip (npCounts dirs)).map
          (fun pc => binnedBase g a2p dirs pc.1 * (pc.2 : ℝ))).get
        ⟨(npUnique dirs).indexOf a, hlen2 ▸ hiu⟩ =
      binnedBase g a2p dirs
          (((npUnique dirs).map a2p).get ⟨(npUnique dirs).indexOf a, hiu⟩) *
        ((npCounts dirs).get ⟨(npUnique dirs).indexOf a, hic⟩ : ℝ) := by
    rw [List.get_eq_getElem, List.getElem_map]
    have hz : (((npUnique dirs).map a2p).zip (npCounts dirs)).get
        ⟨(npUnique dirs).indexOf a, hiz⟩ =
        (((npUnique dirs).map a2p).get ⟨(npUnique dirs).indexOf a, hiu⟩,
          (npCounts dirs).get ⟨(npUnique dirs).indexOf a, hic⟩) := by
      simp [List.getElem_zip]
    rw [List.get_eq_getElem] at hz
    rw [hz]
  rw [hv2, hgetm, he1]
  have hcnt : (npCounts dirs).get ⟨(npUnique dirs).indexOf a, hic⟩ = dirs.count a := by
    show ((npUnique dirs).map (fun u => dirs.count u)).get _ = _
    rw [List.get_eq_getElem, List.getElem_map]
    exact congrArg (fun u => List.count u dirs) hget
  rw [hcnt]

/-! ## C1: deduplication and broadcast in the non-binned branch -/

/-- C1: in a non-binned `get_emission` call, for every component row, the
result at any input index equals the result at any other index holding the
same direction (in particular at its first occurrence), and both equal the
integrator's value at that direction: each unique direction is integrated
once and broadcast back through the `np.unique` inverse-index map. -/
theorem dedup_broadcast {α : Type} [LinearOrder α] (comps : List (α → ℝ))
    (dirs : List α) (k i j : ℕ) (hk : k < comps.length)
    (hi : i < dirs.length) (hj : j < dirs.length)
    (hdir : dirs.get ⟨i, hi⟩ = dirs.get ⟨j, hj⟩) :
    ((getEmissionUnbinned comps dirs).getD k []).getD i 0 =
      ((getEmissionUnbinned comps dirs).getD k []).getD j 0 ∧
    ((getEmissionUnbinned comps dirs).getD k []).getD i 0 =
      comps.get ⟨k, hk⟩ (dirs.get ⟨i, hi⟩) := by
  have hrow : (getEmissionUnbinned comps dirs).getD k [] =
      unbinnedRow (comps.get ⟨k, hk⟩) dirs := by
    unfold getEmissionUnbinned
    rw [getD_map_of_lt _ _ _ k hk]
  rw [hrow, unbinnedRow_getD _ _ i hi, unbinnedRow_getD _ _ j hj, hdir]
  exact ⟨rfl, rfl⟩

theorem dedup_broadcast_witness :
    ((getEmissionUnbinned [fun n : ℕ => (n : ℝ)] [5, 7, 5]).getD 0 []).getD 0 0 =
      ((getEmissionUnbinned [fun n : ℕ => (n : ℝ)] [5, 7, 5]).getD 0 []).getD 2 0 ∧
    ((getEmissionUnbinned [fun n : ℕ => (n : ℝ)] [5, 7, 5]).getD 0 []).getD 0 0 =
      ([fun n : ℕ => (n : ℝ)].get ⟨0, by norm_num⟩)
        ([5, 7, 5].get ⟨0, by norm_num⟩) :=
  dedup_broadcast [fun n : ℕ => (n : ℝ)] [5, 7, 5] 0 0 2
    (by norm_num) (by norm_num) (by norm_num) (by decide)

/-! ## C2: binned scatter with occurrence-count co-adding -/

/-- C2 (amended): in a binned `get_emission` call whose pixelization is
injective on the input directions (always the case for pixel input, where
the pixelization is the identity), every component row of the output map
has one value per pixel of the nside-sized map, the value at the pixel of
an input direction is the integrated emission of that direction times the
direction's occurrence count in the pixelized input, and for unique,
non-repeating directions the binned value at a direction's pixel equals
the non-binned result at that direction's index.  Without injectivity the
property fails (see the counterexample): a pixel shared by several
distinct unique directions holds only the last direction's emission times
that direction's count. -/
theorem binned_scatter_coadd {α : Type} [LinearOrder α] (comps : List (α → ℝ))
    (a2p : α → ℕ) (nside : ℕ) (dirs : List α) (k i : ℕ) (a : α)
    (hinj : ∀ x ∈ dirs, ∀ y ∈ dirs, a2p x = a2p y → x = y)
    (hk : k < comps.length) (ha : a ∈ dirs) (hpa : a2p a < nside2npix nside)
    (hi : i < dirs.length) :
    ((getEmissionBinned comps a2p nside dirs).getD k []).length = nside2npix nside ∧
    ((getEmissionBinned comps a2p nside dirs).getD k []).getD (a2p a) 0 =
      comps.get ⟨k, hk⟩ a * ((dirs.map a2p).count (a2p a) : ℝ) ∧
    (dirs.Nodup → a2p (dirs.get ⟨i, hi⟩) < nside2npix nside →
      ((getEmissionBinned comps a2p nside dirs).getD k []).getD
          (a2p (dirs.get ⟨i, hi⟩)) 0 =
        ((getEmissionUnbinned comps dirs).getD k []).getD i 0) := by
  have hrow : (getEmissionBinned comps a2p nside dirs).getD k [] =
      getEmissionBinnedRow (comps.get ⟨k, hk⟩) a2p nside dirs := by
    unfold getEmissionBinned
    rw [getD_map_of_lt _ _ _ k hk]
  have hurow : (getEmissionUnbinned comps dirs).getD k [] =
      unbinnedRow (comps.get ⟨k, hk⟩) dirs := by
    unfold getEmissionUnbinned
    rw [getD_map_of_lt _ _ _ k hk]
  refine ⟨?_, ?_, ?_⟩
  · rw [hrow]
    unfold getEmissionBinnedRow
    simp
  · rw [hrow]
    unfold getEmissionBinnedRow
    rw [range_map_getD _ _ _ hpa, binnedInner_of_mem _ _ _ _ hinj ha,
        count_map_eq_count dirs a2p a (fun x hx hxa => hinj x hx a ha hxa)]
  · intro hnd hpi
    rw [hrow, hurow]
    unfold getEmissionBinnedRow
    rw [range_map_getD _ _ _ hpi,
        binnedInner_of_mem _ _ _ _ hinj (List.get_mem _ _ _),
        List.count_eq_one_of_mem hnd (List.get_mem _ _ _),
        unbinnedRow_getD _ _ i hi]
    simp

theorem binned_scatter_coadd_witness :
    ((getEmissionBinned [fun n : ℕ => (n : ℝ)] id 1 [2, 2, 5]).getD 0 []).length =
      nside2npix 1 ∧
    ((getEmissionBinned [fun n : ℕ => (n : ℝ)] id 1 [2, 2, 5]).getD 0 []).getD (id 2) 0 =
      ([fun n : ℕ => (n : ℝ)].get ⟨0, by norm_num⟩) 2 *
        ((([2, 2, 5].map id).count (id 2) : ℕ) : ℝ) ∧
    (([2, 2, 5] : List ℕ).Nodup →
      id (([2, 2, 5] : List ℕ).get ⟨2, by norm_num⟩) < nside2npix 1 →
      ((getEmissionBinned [fun n : ℕ => (n : ℝ)] id 1 [2, 2, 5]).getD 0 []).getD
          (id (([2, 2, 5] : List ℕ).get ⟨2, by norm_num⟩)) 0 =
        ((getEmissionUnbinned [fun n : ℕ => (n : ℝ)] [2, 2, 5]).getD 0 []).getD 2 0) :=
  binned_scatter_coadd [fun n : ℕ => (n : ℝ)] id 1 [2, 2, 5] 0 2 2
    (fun x _ y _ hxy => hxy) (by norm_num) (by decide) (by decide) (by norm_num)

/-- Integrator used in the binned-branch counterexample: emission 1 for
direction 0 and emission 3 for every other direction. -/
noncomputable def cexG : ℕ → ℝ := fun d => if d = 0 then 1 else 3

/-- Pixelization used in the binned-branch counterexample: every direction
falls into pixel 0 (as distinct angle pairs inside one HEALPix pixel do). -/
def cexPix : ℕ → ℕ := fun _ => 0

lemma scatterAssign_pair (base : ℕ → ℝ) (p : ℕ) (v1 v2 : ℝ) :
    scatterAssign base [p, p] [v1, v2] p = v2 := by
  show Function.update (Function.update base p v1) p v2 p = v2
  simp

lemma cex_inner : binnedInner cexG cexPix [0, 1] 0 = cexG 1 * ((1 : ℕ) : ℝ) := by
  have hn : npUnique ([0, 1] : List ℕ) = [0, 1] := by decide
  have hc : npCounts ([0, 1] : List ℕ) = [1, 1] := by decide
  unfold binnedInner binnedBase
  rw [hn, hc]
  show scatterAssign (scatterAssign (fun _ => 0) [0, 0] [cexG 0, cexG 1]) [0, 0]
      [scatterAssign (fun _ => 0) [0, 0] [cexG 0, cexG 1] 0 * ((1 : ℕ) : ℝ),
        scatterAssign (fun _ => 0) [0, 0] [cexG 0, cexG 1] 0 * ((1 : ℕ) : ℝ)] 0 =
    cexG 1 * ((1 : ℕ) : ℝ)
  rw [scatterAssign_pair, scatterAssign_pair]

/-- C2 counterexample: a binned call on the two distinct directions 0 and 1
that share pixel 0.  The pixelized input holds pixel 0 twice, but the map
value at pixel 0 is 3 — the last direction's emission times its own count
1 — and differs from `integrated emission times occurrence count` for
every direction of the input, refuting the claim for non-injective
pixelizations (numpy fancy assignment lets the last write win). -/
theorem binned_coadd_counterexample :
    (getEmissionBinnedRow cexG cexPix 1 [0, 1]).getD 0 0 = 3 ∧
    ([0, 1].map cexPix).count 0 = 2 ∧
    (∀ d ∈ ([0, 1] : List ℕ),
      (getEmissionBinnedRow cexG cexPix 1 [0, 1]).getD 0 0 ≠
        cexG d * ((([0, 1].map cexPix).count 0 : ℕ) : ℝ)) := by
  have h0 : (0 : ℕ) < nside2npix 1 := by norm_num [nside2npix]
  have hval : (getEmissionBinnedRow cexG cexPix 1 [0, 1]).getD 0 0 = 3 := by
    unfold getEmissionBinnedRow
    rw [range_map_getD _ _ _ h0, cex_inner]
    norm_num [cexG]
  have hcount : ([0, 1].map cexPix).count 0 = 2 := by decide
  refine ⟨hval, hcount, ?_⟩
  intro d hd
  rw [hval, hcount]
  rcases List.mem_cons.mp hd with hd0 | hd1
  · subst hd0
    norm_num [cexG]
  · rcases List.mem_cons.mp hd1 with hd2 | hd3
    · subst hd2
      norm_num [cexG]
    · exact absurd hd3 (List.not_mem_nil _)

/-! ## C10: pixels absent from the input stay exactly zero -/

/-- C10: in a binned `get_emission` call, every pixel of the output map
that does not occur among the pixelized input directions holds exactly 0
in every component row: the map starts as `np.zeros` and only the unique
queried pixels are ever written. -/
theorem binned_untouched_pixels_zero {α : Type} [LinearOrder α]
    (comps : List (α → ℝ)) (a2p : α → ℕ) (nside : ℕ) (dirs : List α)
    (k p : ℕ) (hk : k < comps.length) (hp : p < nside2npix nside)
    (hnot : p ∉ dirs.map a2p) :
    ((getEmissionBinned comps a2p nside dirs).getD k []).getD p 0 = 0 := by
  have hrow : (getEmissionBinned comps a2p nside dirs).getD k [] =
      getEmissionBinnedRow (comps.get ⟨k, hk⟩) a2p nside dirs := by
    unfold getEmissionBinned
    rw [getD_map_of_lt _ _ _ k hk]
  rw [hrow]
  unfold getEmissionBinnedRow
  rw [range_map_getD _ _ _ hp]
  exact binnedInner_of_not_mem _ _ _ _ hnot

theorem binned_untouched_pixels_zero_witness :
    ((getEmissionBinned [fun _ : ℕ => (1 : ℝ)] id 1 [3]).getD 0 []).getD 5 0 = 0 :=
  binned_untouched_pixels_zero [fun _ : ℕ => (1 : ℝ)] id 1 [3] 0 5
    (by norm_num) (by norm_num [nside2npix]) (by decide)

/-! ## C5: argument validation short-circuits before any numeric work -/

/-- C5: each invalid argument combination of `get_emission` — unsupported
observer, pixels without nside, binned without nside, theta without phi,
phi without theta, both pixels and angles — produces the validation error identifying the
violation, for every ephemeris resolver and every downstream computation:
the error is raised before any position resolution, spectral interpolation
or integration is performed (the result does not depend on `ephPos` or
`compute`). -/
theorem argument_validation_shortcircuit :
    (∀ (bodies : List String) (ephPos : String → ℝ × ℝ × ℝ) (a : EmissionArgs)
      (compute : (String → ℝ × ℝ × ℝ) → EmissionArgs → List ℝ),
      lowerStr a.obs ∉ supportedObservers bodies →
      getEmissionRun bodies ephPos a compute =
        Except.error (EmissionError.unsupportedObserver a.obs)) ∧
    (∀ (bodies : List String) (ephPos : String → ℝ × ℝ × ℝ) (a : EmissionArgs)
      (compute : (String → ℝ × ℝ × ℝ) → EmissionArgs → List ℝ) (ps : List ℕ),
      lowerStr a.obs ∈ supportedObservers bodies →
      a.pixels = some ps → a.nside = none →
      getEmissionRun bodies ephPos a compute =
        Except.error EmissionError.pixelsWithoutNside) ∧
    (∀ (bodies : List String) (ephPos : String → ℝ × ℝ × ℝ) (a : EmissionArgs)
      (compute : (String → ℝ × ℝ × ℝ) → EmissionArgs → List ℝ),
      lowerStr a.obs ∈ supportedObservers bodies →
      a.pixels = none → a.binned = true → a.nside = none →
      getEmissionRun bodies ephPos a compute =
        Except.error EmissionError.binnedWithoutNside) ∧
    (∀ (bodies : List String) (ephPos : String → ℝ × ℝ × ℝ) (a : EmissionArgs)
      (compute : (String → ℝ × ℝ × ℝ) → EmissionArgs → List ℝ) (ths : List ℚ),
      lowerStr a.obs ∈ supportedObservers bodies →
      a.pixels = none → a.binned = false → a.theta = some ths → a.phi = none →
      getEmissionRun bodies ephPos a compute =
        Except.error EmissionError.missingThetaOrPhi) ∧
    (∀ (bodies : List String) (ephPos : String → ℝ × ℝ × ℝ) (a : EmissionArgs)
      (compute : (String → ℝ × ℝ × ℝ) → EmissionArgs → List ℝ) (phs : List ℚ),
      lowerStr a.obs ∈ supportedObservers bodies →
      a.pixels = none → a.binned = false → a.phi = some phs → a.theta = none →
      getEmissionRun bodies ephPos a compute =
        Except.error EmissionError.missingThetaOrPhi) ∧
    (∀ (bodies : List String) (ephPos : String → ℝ × ℝ × ℝ) (a : EmissionArgs)
      (compute : (String → ℝ × ℝ × ℝ) → EmissionArgs → List ℝ)
      (ps : List ℕ) (ns : ℕ) (ths phs : List ℚ),
      lowerStr a.obs ∈ supportedObservers bodies →
      a.pixels = some ps → a.nside = some ns →
      a.theta = some ths → a.phi = some phs →
      getEmissionRun bodies ephPos a compute =
        Except.error EmissionError.bothPixelsAndAngles) := by
  refine ⟨?_, ?_, ?_, ?_, ?_, ?_⟩
  · intro bodies ephPos a compute hobs
    simp [getEmissionRun, validateArgs, hobs]
  · intro bodies ephPos a compute ps hobs hpix hns
    simp [getEmissionRun, validateArgs, hobs, hpix, hns]
  · intro bodies ephPos a compute hobs hpix hbin hns
    simp [getEmissionRun, validateArgs, hobs, hpix, hbin, hns]
  · intro bodies ephPos a compute ths hobs hpix hbin hth hphi
    simp [getEmissionRun, validateArgs, hobs, hpix, hbin, hth, hphi]
  · intro bodies ephPos a compute phs hobs hpix hbin hphi hth
    simp [getEmissionRun, validateArgs, hobs, hpix, hbin, hphi, hth]
  · intro bodies ephPos a compute ps ns ths phs hobs hpix hns hth hphi
    simp [getEmissionRun, validateArgs, hobs, hpix, hns, hth, hphi]

/-- Baseline valid argument record used by the validation witnesses. -/
def argsEarth : EmissionArgs :=
  { freq := 30, obs := "earth", pixels := none, theta := none, phi := none,
    nside := none, lonlat := false, binned := false }

/-- Valid pixel-query argument record used by the validation witnesses. -/
def argsEarthPix : EmissionArgs :=
  { argsEarth with pixels := some [0], nside := some 1 }

theorem argument_validation_shortcircuit_witness :
    getEmissionRun ["earth"] (fun _ => ((0 : ℝ), 0, 0))
        { argsEarth with obs := "mars-orbiter" } (fun _ _ => []) =
      Except.error (EmissionError.unsupportedObserver "mars-orbiter") ∧
    getEmissionRun ["earth"] (fun _ => ((0 : ℝ), 0, 0))
        { argsEarth with pixels := some [0] } (fun _ _ => []) =
      Except.error EmissionError.pixelsWithoutNside ∧
    getEmissionRun ["earth"] (fun _ => ((0 : ℝ), 0, 0))
        { argsEarth with binned := true } (fun _ _ => []) =
      Except.error EmissionError.binnedWithoutNside ∧
    getEmissionRun ["earth"] (fun _ => ((0 : ℝ), 0, 0))
        { argsEarth with theta := some [0] } (fun _ _ => []) =
      Except.error EmissionError.missingThetaOrPhi ∧
    getEmissionRun ["earth"] (fun _ => ((0 : ℝ), 0, 0))
        { argsEarth with phi := some [0] } (fun _ _ => []) =
      Except.error EmissionError.missingThetaOrPhi ∧
    getEmissionRun ["earth"] (fun _ => ((0 : ℝ), 0, 0))
        { argsEarth with
            pixels := some [0]
            nside := some 1
            theta := some [0]
            phi := some [0] } (fun _ _ => []) =
      Except.error EmissionError.bothPixelsAndAngles :=
  ⟨argument_validation_shortcircuit.1 ["earth"] _ _ _ (by decide),
   argument_validation_shortcircuit.2.1 ["earth"] _ _ _ [0] (by decide) rfl rfl,
   argument_validation_shortcircuit.2.2.1 ["earth"] _ _ _ (by decide) rfl rfl rfl,
   argument_validation_shortcircuit.2.2.2.1 ["earth"] _ _ _ [0] (by decide)
     rfl rfl rfl rfl,
   argument_validation_shortcircuit.2.2.2.2.1 ["earth"] _ _ _ [0] (by decide)
     rfl rfl rfl rfl,
   argument_validation_shortcircuit.2.2.2.2.2 ["earth"] _ _ _ [0] 1 [0] [0]
     (by decide) rfl rfl rfl rfl⟩

/-! ## C3: spectral-range validation -/

/-- C3: the repository's `validate_frequency` accepts every frequency in
the inclusive range of the tabulated spectrum and rejects any frequency
beyond either bound with an error carrying the valid range — but
`get_emission` as implemented never applies it: once the argument checks
pass, the call proceeds for every frequency whatsoever, so an
out-of-spectral-range frequency raises no validation error. -/
theorem frequency_validation_gap :
    (∀ (spectrum : List ℚ) (freq : ℚ),
      listMin spectrum ≤ freq → freq ≤ listMax spectrum →
      validate_frequency false spectrum freq = Except.ok freq) ∧
    (∀ (spectrum : List ℚ) (freq : ℚ),
      freq < listMin spectrum ∨ listMax spectrum < freq →
      validate_frequency false spectrum freq =
        Except.error (listMin spectrum, listMax spectrum)) ∧
    (∀ (bodies : List String) (ephPos : String → ℝ × ℝ × ℝ) (a : EmissionArgs)
      (compute : (String → ℝ × ℝ × ℝ) → EmissionArgs → List ℝ) (q : ℚ),
      validateArgs bodies a = none →
      getEmissionRun bodies ephPos { a with freq := q } compute =
        Except.ok (compute ephPos { a with freq := q })) := by
  refine ⟨?_, ?_, ?_⟩
  · intro spectrum freq h1 h2
    simp [validate_frequency, h1, h2]
  · intro spectrum freq hor
    have hcond : ¬(listMin spectrum ≤ freq ∧ freq ≤ listMax spectrum) := by
      rcases hor with hlt | hgt
      · exact fun hcontra => absurd hcontra.1 (not_le.mpr hlt)
      · exact fun hcontra => absurd hcontra.2 (not_le.mpr hgt)
    simp [validate_frequency, hcond]
  · intro bodies ephPos a compute q hval
    have hfr : validateArgs bodies { a with freq := q } = validateArgs bodies a := rfl
    unfold getEmissionRun
    rw [hfr, hval]

theorem frequency_validation_gap_witness :
    validate_frequency false [5, 10] 10 = Except.ok 10 ∧
    validate_frequency false [5, 10] 11 =
      Except.error (listMin [5, 10], listMax [5, 10]) ∧
    getEmissionRun ["earth"] (fun _ => ((0 : ℝ), 0, 0))
        { argsEarthPix with freq := 11 } (fun _ _ => [0]) =
      Except.ok [0] :=
  ⟨frequency_validation_gap.1 [5, 10] 10 (by decide) (by decide),
   frequency_validation_gap.2.1 [5, 10] 11 (Or.inr (by decide)),
   frequency_validation_gap.2.2 ["earth"] _ argsEarthPix _ 11 (by decide)⟩

/-! ## C4: pixel-range validation -/

/-- C4: `get_emission` performs no pixel-range validation at all — with a
valid argument combination the call proceeds for every pixel list, however
far out of range — and even the repository's (unused) `validate_pixels`
accepts any pixel list whose maximum does not strictly exceed
`12 * nside ^ 2`, so the invalid pixel index `12 * nside ^ 2` itself
passes. -/
theorem pixel_validation_gap :
    (∀ (nside : ℕ) (pixels : List ℕ),
      listMaxNat pixels ≤ nside2npix nside → validate_pixels nside pixels = none) ∧
    (∀ (bodies : List String) (ephPos : String → ℝ × ℝ × ℝ) (a : EmissionArgs)
      (compute : (String → ℝ × ℝ × ℝ) → EmissionArgs → List ℝ) (ps qs : List ℕ),
      validateArgs bodies { a with pixels := some ps } = none →
      getEmissionRun bodies ephPos { a with pixels := some qs } compute =
        Except.ok (compute ephPos { a with pixels := some qs })) := by
  constructor
  · intro nside pixels hle
    unfold validate_pixels
    rw [if_neg (not_lt.mpr hle)]
  · intro bodies ephPos a compute ps qs hval
    have hpx : validateArgs bodies { a with pixels := some qs } =
        validateArgs bodies { a with pixels := some ps } := rfl
    unfold getEmissionRun
    rw [hpx, hval]

theorem pixel_validation_gap_witness :
    12 * 1 ^ 2 - 1 < 12 ∧
    validate_pixels 1 [12] = none ∧
    getEmissionRun ["earth"] (fun _ => ((0 : ℝ), 0, 0))
        { argsEarthPix with pixels := some [100] } (fun _ _ => [0]) =
      Except.ok [0] :=
  ⟨by decide,
   pixel_validation_gap.1 1 [12] (by decide),
   pixel_validation_gap.2 ["earth"] _ argsEarthPix _ [0] [100] (by decide)⟩
